import Mathlib

/-!
Verification development for the jade interactive git agent
(`src/main.rs`).  The orchestration loop, response parsing, safety
screening and history maintenance are embedded shallowly: Rust string
operations are modelled on the underlying character lists, the shell and
the LLM backend are abstract parameters, and observable actions (backend
calls, spawned commands, printed diagnostics) are recorded in an event
trace.
-/

set_option maxRecDepth 40000

namespace Jade

/-! ### String primitives (models of Rust `str` methods) -/

/-- Model of Rust `str::split_once` on character lists: splits at the first
occurrence of `pat`, returning the text before and after it. -/
def splitOnceData (pat : List Char) : List Char → Option (List Char × List Char)
  | [] => none
  | c :: rest =>
    if pat.isPrefixOf (c :: rest) then
      some ([], (c :: rest).drop pat.length)
    else
      match splitOnceData pat rest with
      | some (p, q) => some (c :: p, q)
      | none => none

/-- Rust `str::split_once` at the `String` level. -/
def splitOnce (s pat : String) : Option (String × String) :=
  match splitOnceData pat.data s.data with
  | some (p, q) => some (String.mk p, String.mk q)
  | none => none

/-- Model of Rust `str::contains` for substring patterns. -/
def containsSubstr (s pat : String) : Bool :=
  (splitOnceData pat.data s.data).isSome

/-- Model of Rust `str::trim` on character lists. -/
def trimData (l : List Char) : List Char :=
  ((l.dropWhile Char.isWhitespace).reverse.dropWhile Char.isWhitespace).reverse

/-- Rust `str::trim` at the `String` level. -/
def trimS (s : String) : String := String.mk (trimData s.data)

/-- Split a character list at every newline; the resulting parts never
contain a newline, and a trailing part is always present (possibly empty). -/
def splitNl : List Char → List (List Char)
  | [] => [[]]
  | c :: rest =>
    if c = '\n' then [] :: splitNl rest
    else
      match splitNl rest with
      | [] => [[c]]
      | p :: ps => (c :: p) :: ps

/-- Strip one trailing carriage return, as Rust `str::lines` does for lines
terminated by a newline. -/
def stripCr (l : List Char) : List Char :=
  if l.getLast? = some '\r' then l.dropLast else l

/-- Model of Rust `str::lines`: split at newlines, strip a carriage return
from newline-terminated parts, and drop a final empty part (which arises
from a trailing newline). -/
def rustLinesData (s : List Char) : List (List Char) :=
  (splitNl s).dropLast.map stripCr ++
    (match (splitNl s).getLast? with
     | some [] => []
     | some l => [l]
     | none => [])

/-- Rust `str::lines` at the `String` level. -/
def rustLines (s : String) : List String := (rustLinesData s.data).map String.mk

/-- Model of `raw_text.replace("\x60", "").trim().to_string()` from
`get_llm_response`: remove every backtick, then trim. -/
def cleanResponse (raw : String) : String :=
  trimS (String.mk (raw.data.filter (fun c => !(c == '\x60'))))

/-! ### Data model -/

/-- A chat message, as in the Rust `Message` struct (role and content). -/
structure Message where
  role : String
  content : String
  deriving Repr, DecidableEq

/-- Observable actions of the orchestrator: a request to the LLM backend, a
spawned shell command, the printed final message, the abort diagnostic, and
other printed diagnostics. -/
inductive Event where
  | backendCall
  | execCmd (cmd : String)
  | finalPrint (msg : String)
  | abortDiag
  | print (msg : String)
  deriving Repr, DecidableEq

/-- Whether processing one model reply ends the turn (the `break` paths in
`repl_step`) or loops for another round-trip. -/
inductive StepOutcome where
  | terminated
  | continued
  deriving Repr, DecidableEq

/-! ### Literal strings from the source -/

def executeMarker : String := "EXECUTE:"

def finalMarker : String := "FINAL:"

def hardResetPat : String := "reset --hard"

def rmRfPat : String := "rm -rf"

def destructiveRefusal : String := "Do NOT try to execute any destructive commands"

def formatReminder : String :=
  "Each EXECUTE command must be on its own line. Format:\n" ++
    "EXECUTE: <command>\n" ++ "...\n" ++ "EXECUTE: <command>"

def mixedCorrection : String :=
  "EXECUTE lines must contain ONLY the command. Remove all explanations and commentary. Format: \x60EXECUTE: <command>\x60."

def lineCorrection : String := "Command should start with \x60EXECUTE\x60."

def catchAllCorrection : String :=
  "Command should start with either \x60FINAL:\x60 or \x60EXECUTE\x60."

/-! ### Program functions (translated from `src/main.rs`) -/

/-- The user-role message built by `add_llm_correction`. -/
def corrMsg (command correction : String) : Message :=
  ⟨"user", "ERROR: " ++ command ++ " command is invalid. " ++ correction ++
    "\nEnsure future queries don't make this mistake again."⟩

/-- `add_llm_correction`: append one correction message to the history. -/
def add_llm_correction (command correction : String) (history : List Message) :
    List Message :=
  history ++ [corrMsg command correction]

/-- `handle_execution`: refuse destructive commands, refuse commands that
still contain the `EXECUTE:` marker, otherwise run the command through the
shell.  The result is `(stdout, stderr, executed-flag)` paired with the
trace of spawned commands. -/
def handle_execution (shell : String → String × String × Bool) (command : String) :
    (String × String × Bool) × List Event :=
  if containsSubstr command hardResetPat || containsSubstr command rmRfPat then
    ((destructiveRefusal, "", false), [])
  else if containsSubstr command executeMarker then
    ((formatReminder, "", false), [])
  else
    (((shell command).1, (shell command).2.1, true), [Event.execCmd command])

/-- One feedback block for an executed command, as formatted into
`feedback_buffer` in `repl_step`. -/
def feedbackChunk (command output error : String) : String :=
  "Output of \x60" ++ command ++ "\x60:\n" ++ output ++ "\n" ++
    (if error = "" then "" else "ERROR: " ++ error ++ "\n")

/-- One iteration of the `for command in response.lines()` loop of
`repl_step`: returns the executed flag contribution, the feedback buffer
contribution, the updated history, and the spawned-command trace. -/
def scanLine (shell : String → String × String × Bool) (line : String)
    (history : List Message) : Bool × String × List Message × List Event :=
  match splitOnce (trimS line) executeMarker with
  | some (_, command_cleaned) =>
    if command_cleaned = "" then (false, "", history, [])
    else
      let r := handle_execution shell command_cleaned
      if r.1.2.2 then
        (true, feedbackChunk command_cleaned r.1.1 r.1.2.1, history, r.2)
      else
        (false, "", add_llm_correction command_cleaned r.1.1 history, r.2)
  | none =>
    (false, "", add_llm_correction (trimS line) lineCorrection history, [])

/-- The whole line loop of `repl_step`, over a list of lines. -/
def scanLines (shell : String → String × String × Bool) (lines : List String)
    (history : List Message) : Bool × String × List Message × List Event :=
  match lines with
  | [] => (false, "", history, [])
  | l :: ls =>
    let r₁ := scanLine shell l history
    let r₂ := scanLines shell ls r₁.2.2.1
    (r₁.1 || r₂.1, r₁.2.1 ++ r₂.2.1, r₂.2.2.1, r₁.2.2.2 ++ r₂.2.2.2)

/-- Processing of one assistant reply inside the `repl_step` loop: the
mixed-marker correction, the `FINAL:` split (which breaks the loop), and
otherwise the line scan followed by either the aggregated feedback push or
the catch-all correction. -/
def processResponse (shell : String → String × String × Bool) (response : String)
    (history : List Message) : StepOutcome × List Message × List Event :=
  let history :=
    if containsSubstr response finalMarker && containsSubstr response executeMarker then
      add_llm_correction response mixedCorrection history
    else history
  match splitOnce response finalMarker with
  | some (_, final_msg) =>
    (StepOutcome.terminated, history,
     if trimS final_msg = "" then [] else [Event.finalPrint (trimS final_msg)])
  | none =>
    let r := scanLines shell (rustLines response) history
    if r.1 then
      (StepOutcome.continued, r.2.2.1 ++ [Message.mk "user" r.2.1], r.2.2.2)
    else
      (StepOutcome.continued, add_llm_correction response catchAllCorrection r.2.2.1, r.2.2.2)

/-- The user-input push at the top of `get_llm_response`: non-blank input is
appended to the history as a user message. -/
def pushUser (input : String) (history : List Message) : List Message :=
  if trimS input = "" then history else history ++ [Message.mk "user" input]

/-- The history as it stands in `get_llm_response` right after the assistant
reply is pushed, before the trimming check. -/
def pushedHistory (input raw : String) (history : List Message) : List Message :=
  pushUser input history ++ [Message.mk "assistant" (cleanResponse raw)]

/-- `get_llm_response`: push the user input (if non-blank), consult the
backend, then on success push the cleaned assistant reply and drain the two
oldest entries when the history length exceeds 100. -/
def get_llm_response (backend : Except String String) (input : String)
    (history : List Message) : Except String String × List Message :=
  match backend with
  | Except.error e => (Except.error e, pushUser input history)
  | Except.ok raw =>
    (Except.ok (cleanResponse raw),
     if (pushedHistory input raw history).length > 100 then
       (pushedHistory input raw history).drop 2
     else pushedHistory input raw history)

/-- The `loop` of `repl_step`, with the attempt counter made explicit and an
extra structural fuel argument.  The guard `attempts > 10` aborts the turn,
so from the entry point (fuel 12, attempts 0) the fuel never runs out: fuel
reaches 1 exactly when attempts reaches 11 and the guard fires first. -/
def replLoopF (shell : String → String × String × Bool)
    (backends : Nat → Except String String) :
    Nat → Nat → String → List Message → Except String Unit × List Message × List Event
  | 0, _, _, history => (Except.ok (), history, [])
  | fuel + 1, attempts, input, history =>
    if attempts > 10 then (Except.ok (), history, [Event.abortDiag])
    else
      let g := get_llm_response (backends attempts) input history
      match g.1 with
      | Except.error e => (Except.error e, g.2, [Event.backendCall])
      | Except.ok response =>
        let p := processResponse shell response g.2
        match p.1 with
        | StepOutcome.terminated => (Except.ok (), p.2.1, Event.backendCall :: p.2.2)
        | StepOutcome.continued =>
          let r := replLoopF shell backends fuel (attempts + 1) "" p.2.1
          (r.1, r.2.1, Event.backendCall :: (p.2.2 ++ r.2.2))

/-- `repl_step` from the point where the user input has been read: run the
correction loop with the attempt counter starting at 0. -/
def repl_step (shell : String → String × String × Bool)
    (backends : Nat → Except String String) (input : String)
    (history : List Message) : Except String Unit × List Message × List Event :=
  replLoopF shell backends 12 0 input history

/-- The error handling in `main`'s loop body: a failed `repl_step` is
reported as a printed diagnostic; nothing terminates the process. -/
def mainIter (r : Except String Unit) : List Event :=
  match r with
  | Except.error e => [Event.print ("Critical Error: " ++ e)]
  | Except.ok _ => []

/-- The session loop of `main`, driven by a list of user turns (each turn
carries the user input and the backend's replies for that turn). -/
def mainLoop (shell : String → String × String × Bool) :
    List (String × (Nat → Except String String)) → List Message →
      List Event × List Message
  | [], history => ([], history)
  | (input, backends) :: rest, history =>
    let r := repl_step shell backends input history
    let m := mainLoop shell rest r.2.1
    (r.2.2 ++ mainIter r.1 ++ m.1, m.2)

/-- A trivial shell used to instantiate theorems at concrete inputs. -/
def shellTriv : String → String × String × Bool := fun _ => ("", "", true)

/-- A backend reply that is delivered successfully and, after cleaning,
contains no `FINAL:` marker, so the loop keeps going. -/
def okNoFinal (b : Except String String) : Prop :=
  ∃ s, b = Except.ok s ∧ containsSubstr (cleanResponse s) finalMarker = false

/-- The shell used for the C5 scenario: it answers the two echo commands of
the claim with their natural outputs. -/
def shellC5 : String → String × String × Bool :=
  fun c =>
    if c = " echo hi" then ("hi\n", "", true)
    else if c = " echo bye" then ("bye\n", "", true)
    else ("", "", true)

/-- A history of exactly 100 messages, used to exercise the trimming path. -/
def hundredMsgs : List Message := List.replicate 100 (Message.mk "user" "x")

/-- A first reply of 110 marker-free lines, which makes the scan append 110
per-line corrections plus the catch-all one. -/
def overflowResponse : String := String.intercalate "\n" (List.replicate 110 "x")

/-- Backend replies for the C3 counterexample run: the oversized reply
first, then a terminating final message. -/
def overflowBackends : Nat → Except String String :=
  fun k => if k = 0 then Except.ok overflowResponse else Except.ok "FINAL: done"

/-! ### Lemmas about the string primitives -/

theorem splitOnceData_some {pat : List Char} :
    ∀ {s p q : List Char}, splitOnceData pat s = some (p, q) → s = p ++ pat ++ q := by
  intro s
  induction s with
  | nil => intro p q h; simp [splitOnceData] at h
  | cons c rest ih =>
    intro p q h
    rw [splitOnceData] at h
    split at h
    · rename_i hpre
      have hpfx : pat <+: (c :: rest) := List.isPrefixOf_iff_prefix.mp hpre
      obtain ⟨t, ht⟩ := hpfx
      simp only [Option.some.injEq, Prod.mk.injEq] at h
      obtain ⟨h₁, h₂⟩ := h
      subst h₁; subst h₂
      rw [← ht]
      simp [ List.drop_left]
    · rename_i hpre
      cases hrec : splitOnceData pat rest with
      | some pq =>
        obtain ⟨p', q'⟩ := pq
        rw [hrec] at h
        simp only [Option.some.injEq, Prod.mk.injEq] at h
        obtain ⟨h₁, h₂⟩ := h
        subst h₁; subst h₂
        have := ih hrec
        rw [this]
        simp
      | none => rw [hrec] at h; cases h

theorem splitOnceData_isSome_iff {pat : List Char} (hp : pat ≠ []) :
    ∀ {s : List Char}, (splitOnceData pat s).isSome = true ↔ pat <:+: s := by
  intro s
  induction s with
  | nil =>
    simp only [splitOnceData, Option.isSome_none, List.infix_nil]
    simp [hp]
  | cons c rest ih =>
    rw [splitOnceData]
    by_cases hpre : pat.isPrefixOf (c :: rest)
    · rw [if_pos hpre]
      simp only [Option.isSome_some, true_iff]
      exact ( List.isPrefixOf_iff_prefix.mp hpre).isInfix
    · rw [if_neg hpre]
      have hnp : ¬ pat <+: (c :: rest) := fun hc => hpre ( List.isPrefixOf_iff_prefix.mpr hc)
      rw [ List.infix_cons_iff]
      cases hrec : splitOnceData pat rest with
      | some pq =>
        obtain ⟨p', q'⟩ := pq
        have hrest : pat <:+: rest := ih.mp (by rw [hrec]; rfl)
        constructor
        · intro _; exact Or.inr hrest
        · intro _; rfl
      | none =>
        constructor
        · intro hc; simp at hc
        · intro hc
          cases hc with
          | inl h => exact absurd h hnp
          | inr h =>
            exfalso
            have hx := ih.mpr h
            rw [hrec] at hx
            simp at hx

theorem containsSubstr_iff_inf {s pat : String} (hp : pat.data ≠ []) :
    containsSubstr s pat = true ↔ pat.data <:+: s.data := by
  unfold containsSubstr
  exact splitOnceData_isSome_iff hp

theorem splitOnce_eq_none {s pat : String} (h : containsSubstr s pat = false) :
    splitOnce s pat = none := by
  unfold containsSubstr at h
  unfold splitOnce
  cases hd : splitOnceData pat.data s.data with
  | some pq => rw [hd] at h; simp at h
  | none => rfl

theorem exists_splitOnce {s pat : String} (h : containsSubstr s pat = true) :
    ∃ p q, splitOnce s pat = some (p, q) := by
  unfold containsSubstr at h
  unfold splitOnce
  cases hd : splitOnceData pat.data s.data with
  | some pq => exact ⟨String.mk pq.1, String.mk pq.2, rfl⟩
  | none => rw [hd] at h; simp at h

theorem ne_empty_of_contains {s pat : String} (h : containsSubstr s pat = true)
    (hp : pat.data ≠ []) : s ≠ "" := by
  unfold containsSubstr at h
  cases hd : splitOnceData pat.data s.data with
  | some pq =>
    obtain ⟨p, q⟩ := pq
    have hs : s.data = p ++ pat.data ++ q := splitOnceData_some hd
    intro hc
    subst hc
    simp at hs
    exact hp hs.2.1
  | none => rw [hd] at h; simp at h

theorem splitNl_spec : ∀ s : List Char,
    ∃ p ps, splitNl s = p :: ps ∧ p <+: s ∧ ∀ l ∈ ps, l <:+: s := by
  intro s
  induction s with
  | nil => exact ⟨[], [], rfl, List.nil_prefix, by simp⟩
  | cons c rest ih =>
    obtain ⟨p, ps, hval, hpfx, hmem⟩ := ih
    by_cases hc : c = '\n'
    · refine ⟨[], splitNl rest, by rw [splitNl, if_pos hc], List.nil_prefix, ?_⟩
      intro l hl
      rw [hval] at hl
      cases hl with
      | head => exact (hpfx.isInfix).trans (List.infix_cons_iff.mpr (Or.inr List.infix_rfl))
      | tail _ hl => exact (hmem l hl).trans (List.infix_cons_iff.mpr (Or.inr List.infix_rfl))
    · refine ⟨c :: p, ps, ?_, ?_, ?_⟩
      · rw [splitNl, if_neg hc, hval]
      · exact List.cons_prefix_cons.mpr ⟨rfl, hpfx⟩
      · intro l hl
        exact (hmem l hl).trans (List.infix_cons_iff.mpr (Or.inr List.infix_rfl))

theorem mem_splitNl_inf {s l : List Char} (h : l ∈ splitNl s) : l <:+: s := by
  obtain ⟨p, ps, hval, hpfx, hmem⟩ := splitNl_spec s
  rw [hval] at h
  cases h with
  | head => exact hpfx.isInfix
  | tail _ h => exact hmem l h

theorem stripCr_pre (l : List Char) : stripCr l <+: l := by
  unfold stripCr
  split
  · exact List.dropLast_prefix l
  · exact List.prefix_rfl

theorem mem_rustLinesData_inf {s l : List Char} (h : l ∈ rustLinesData s) :
    l <:+: s := by
  unfold rustLinesData at h
  rw [List.mem_append] at h
  cases h with
  | inl h =>
    rw [List.mem_map] at h
    obtain ⟨l', hl', rfl⟩ := h
    have hmem : l' ∈ splitNl s := (List.dropLast_sublist (splitNl s)).mem hl'
    exact ((stripCr_pre l').isInfix).trans (mem_splitNl_inf hmem)
  | inr h =>
    revert h
    cases hlast : (splitNl s).getLast? with
    | none => intro h; simp at h
    | some l' =>
      have hmem : l' ∈ splitNl s := List.mem_of_getLast?_eq_some hlast
      cases l' with
      | nil => intro h; simp at h
      | cons a as =>
        intro h
        simp only [List.mem_singleton] at h
        subst h
        exact mem_splitNl_inf hmem

theorem trimData_inf (l : List Char) : trimData l <:+: l := by
  unfold trimData
  have h₁ : l.dropWhile Char.isWhitespace <:+ l := List.dropWhile_suffix _
  have h₂ : ((l.dropWhile Char.isWhitespace).reverse.dropWhile Char.isWhitespace).reverse
      <+: (l.dropWhile Char.isWhitespace) := by
    have hs : (l.dropWhile Char.isWhitespace).reverse.dropWhile Char.isWhitespace
        <:+ (l.dropWhile Char.isWhitespace).reverse := List.dropWhile_suffix _
    simpa using hs.reverse
  exact h₂.isInfix.trans h₁.isInfix

theorem line_no_marker {response l : String}
    (h : containsSubstr response executeMarker = false) (hl : l ∈ rustLines response) :
    splitOnce (trimS l) executeMarker = none := by
  unfold rustLines at hl
  rw [List.mem_map] at hl
  obtain ⟨d, hd, rfl⟩ := hl
  cases hx : splitOnceData executeMarker.data (trimS (String.mk d)).data with
  | none => simp [splitOnce, hx]
  | some pq =>
    exfalso
    have hsome : (splitOnceData executeMarker.data (trimS (String.mk d)).data).isSome = true := by
      rw [hx]; rfl
    have hne : executeMarker.data ≠ [] := by decide
    have hinf₁ : executeMarker.data <:+: (trimS (String.mk d)).data :=
      (splitOnceData_isSome_iff hne).mp hsome
    have hinf₂ : (trimS (String.mk d)).data <:+: d := trimData_inf d
    have hinf₃ : d <:+: response.data := mem_rustLinesData_inf hd
    have : containsSubstr response executeMarker = true := by
      rw [containsSubstr_iff_inf hne]
      exact (hinf₁.trans hinf₂).trans hinf₃
    rw [h] at this
    cases this

/-! ### Trace lemmas -/

theorem handle_execution_events (shell : String → String × String × Bool) (cmd : String) :
    ∀ e ∈ (handle_execution shell cmd).2, ∃ c, e = Event.execCmd c := by
  unfold handle_execution
  split
  · simp
  · split
    · simp
    · intro e he
      simp at he
      exact ⟨cmd, he⟩

theorem scanLine_events (shell : String → String × String × Bool) (line : String)
    (history : List Message) :
    ∀ e ∈ (scanLine shell line history).2.2.2, ∃ c, e = Event.execCmd c := by
  intro e he
  unfold scanLine at he
  cases hsp : splitOnce (trimS line) executeMarker with
  | some pq =>
    obtain ⟨pre, cmd⟩ := pq
    rw [hsp] at he
    simp only at he
    split at he
    · simp at he
    · split at he
      · exact handle_execution_events shell cmd e he
      · exact handle_execution_events shell cmd e he
  | none =>
    rw [hsp] at he
    simp at he

theorem scanLines_events (shell : String → String × String × Bool) :
    ∀ (lines : List String) (history : List Message),
      ∀ e ∈ (scanLines shell lines history).2.2.2, ∃ c, e = Event.execCmd c := by
  intro lines
  induction lines with
  | nil => intro history e he; simp [scanLines] at he
  | cons l ls ih =>
    intro history e he
    rw [scanLines] at he
    simp only at he
    rw [List.mem_append] at he
    cases he with
    | inl h => exact scanLine_events shell l history e h
    | inr h => exact ih _ e h

theorem processResponse_events (shell : String → String × String × Bool)
    (response : String) (history : List Message) :
    ∀ e ∈ (processResponse shell response history).2.2,
      (∃ c, e = Event.execCmd c) ∨ (∃ m, e = Event.finalPrint m) := by
  intro e he
  unfold processResponse at he
  cases hsp : splitOnce response finalMarker with
  | some pq =>
    obtain ⟨pre, post⟩ := pq
    rw [hsp] at he
    simp only at he
    split at he
    · simp at he
    · simp at he
      exact Or.inr ⟨trimS post, he⟩
  | none =>
    rw [hsp] at he
    simp only at he
    split at he
    · split at he
      · exact Or.inl (scanLines_events shell _ _ e he)
      · exact Or.inl (scanLines_events shell _ _ e he)
    · split at he
      · exact Or.inl (scanLines_events shell _ _ e he)
      · exact Or.inl (scanLines_events shell _ _ e he)

theorem no_backendCall_of_scan {evs : List Event}
    (h : ∀ e ∈ evs, (∃ c, e = Event.execCmd c) ∨ (∃ m, e = Event.finalPrint m)) :
    evs.count Event.backendCall = 0 ∧ evs.count Event.abortDiag = 0 := by
  constructor
  · rw [List.count_eq_zero]
    intro hm
    rcases h _ hm with ⟨c, hc⟩ | ⟨m, hm'⟩
    · exact Event.noConfusion hc
    · exact Event.noConfusion hm'
  · rw [List.count_eq_zero]
    intro hm
    rcases h _ hm with ⟨c, hc⟩ | ⟨m, hm'⟩
    · exact Event.noConfusion hc
    · exact Event.noConfusion hm'

theorem processResponse_continued (shell : String → String × String × Bool)
    (response : String) (history : List Message)
    (hf : containsSubstr response finalMarker = false) :
    (processResponse shell response history).1 = StepOutcome.continued := by
  unfold processResponse
  rw [splitOnce_eq_none hf]
  simp only
  split
  · split <;> rfl
  · split <;> rfl

theorem replLoopF_backend_le (shell : String → String × String × Bool)
    (backends : Nat → Except String String) :
    ∀ (fuel attempts : Nat) (input : String) (history : List Message),
      ((replLoopF shell backends fuel attempts input history).2.2).count Event.backendCall
        ≤ 11 - attempts := by
  intro fuel
  induction fuel with
  | zero => intro a input history; simp [replLoopF]
  | succ fuel ih =>
    intro a input history
    simp only [replLoopF]
    by_cases ha : a > 10
    · rw [if_pos ha]
      simp
    · rw [if_neg ha]
      cases hg : (get_llm_response (backends a) input history).1 with
      | error e => simp; omega
      | ok response =>
        simp only
        have hsc := (no_backendCall_of_scan
          (processResponse_events shell response
            (get_llm_response (backends a) input history).2)).1
        cases hp : (processResponse shell response
            (get_llm_response (backends a) input history).2).1 with
        | terminated =>
          simp only [List.count_cons, hsc]
          simp
          omega
        | continued =>
          have hih := ih (a + 1) "" (processResponse shell response
            (get_llm_response (backends a) input history).2).2.1
          simp only [List.count_cons, List.count_append, hsc]
          simp only [beq_self_eq_true, if_true]
          omega

theorem replLoopF_abort_le (shell : String → String × String × Bool)
    (backends : Nat → Except String String) :
    ∀ (fuel attempts : Nat) (input : String) (history : List Message),
      ((replLoopF shell backends fuel attempts input history).2.2).count Event.abortDiag
        ≤ 1 := by
  intro fuel
  induction fuel with
  | zero => intro a input history; simp [replLoopF]
  | succ fuel ih =>
    intro a input history
    simp only [replLoopF]
    by_cases ha : a > 10
    · rw [if_pos ha]
      simp
    · rw [if_neg ha]
      cases hg : (get_llm_response (backends a) input history).1 with
      | error e => simp
      | ok response =>
        simp only
        have hsc := (no_backendCall_of_scan
          (processResponse_events shell response
            (get_llm_response (backends a) input history).2)).2
        cases hp : (processResponse shell response
            (get_llm_response (backends a) input history).2).1 with
        | terminated =>
          simp only [List.count_cons, hsc]
          simp
        | continued =>
          have hih := ih (a + 1) "" (processResponse shell response
            (get_llm_response (backends a) input history).2).2.1
          simp only [List.count_cons, List.count_append, hsc]
          simp
          omega

theorem append_eq_abort_split {l₁ l₂ pre post : List Event}
    (h : l₁ ++ l₂ = pre ++ Event.abortDiag :: post) (ha : Event.abortDiag ∉ l₁) :
    ∃ pre₂, l₂ = pre₂ ++ Event.abortDiag :: post := by
  induction l₁ generalizing pre with
  | nil => exact ⟨pre, by simpa using h⟩
  | cons x xs ih =>
    cases pre with
    | nil =>
      simp at h
      exact absurd (h.1 ▸ List.mem_cons_self x xs) ha
    | cons y pre' =>
      simp at h
      exact ih h.2 (fun hm => ha (List.mem_cons_of_mem x hm))

theorem replLoopF_abort_last (shell : String → String × String × Bool)
    (backends : Nat → Except String String) :
    ∀ (fuel attempts : Nat) (input : String) (history : List Message)
      (pre post : List Event),
      (replLoopF shell backends fuel attempts input history).2.2 =
        pre ++ Event.abortDiag :: post → post = [] := by
  intro fuel
  induction fuel with
  | zero =>
    intro a input history pre post heq
    simp [replLoopF] at heq
  | succ fuel ih =>
    intro a input history pre post heq
    simp only [replLoopF] at heq
    by_cases ha : a > 10
    · rw [if_pos ha] at heq
      have hlen := congrArg List.length heq
      simp at hlen
      exact List.length_eq_zero.mp (by omega)
    · rw [if_neg ha] at heq
      cases hg : (get_llm_response (backends a) input history).1 with
      | error e =>
        rw [hg] at heq
        simp only at heq
        have hlen := congrArg List.length heq
        simp at hlen
        have hpost : post = [] := List.length_eq_zero.mp (by omega)
        have hpre : pre = [] := List.length_eq_zero.mp (by omega)
        subst hpost; subst hpre
        simp at heq
      | ok response =>
        rw [hg] at heq
        simp only at heq
        cases hp : (processResponse shell response
            (get_llm_response (backends a) input history).2).1 with
        | terminated =>
          rw [hp] at heq
          simp only at heq
          exfalso
          have hmem : Event.abortDiag ∈ pre ++ Event.abortDiag :: post := by simp
          rw [← heq] at hmem
          simp at hmem
          rcases processResponse_events shell response
            (get_llm_response (backends a) input history).2 _ hmem with ⟨c, hc⟩ | ⟨m, hm⟩
          · exact Event.noConfusion hc
          · exact Event.noConfusion hm
        | continued =>
          rw [hp] at heq
          simp only at heq
          rw [← List.cons_append] at heq
          have hnotin : Event.abortDiag ∉
              Event.backendCall :: (processResponse shell response
                (get_llm_response (backends a) input history).2).2.2 := by
            intro hm
            simp at hm
            rcases processResponse_events shell response
              (get_llm_response (backends a) input history).2 _ hm with ⟨c, hc⟩ | ⟨m, hm'⟩
            · exact Event.noConfusion hc
            · exact Event.noConfusion hm'
          obtain ⟨pre₂, hpre₂⟩ := append_eq_abort_split heq hnotin
          exact ih (a + 1) "" _ pre₂ post hpre₂

theorem replLoopF_abort_one (shell : String → String × String × Bool)
    (backends : Nat → Except String String) :
    ∀ (fuel attempts : Nat) (input : String) (history : List Message),
      attempts + fuel = 12 → attempts ≤ 11 →
      (∀ k, attempts ≤ k → k ≤ 10 → okNoFinal (backends k)) →
      ((replLoopF shell backends fuel attempts input history).2.2).count Event.abortDiag
          = 1 ∧
      ((replLoopF shell backends fuel attempts input history).2.2).count Event.backendCall
          = 11 - attempts := by
  intro fuel
  induction fuel with
  | zero => intro a input history h12 h11 _; omega
  | succ fuel ih =>
    intro a input history h12 h11 hok
    simp only [replLoopF]
    by_cases ha : a > 10
    · rw [if_pos ha]
      refine ⟨by simp, ?_⟩
      have : a = 11 := by omega
      subst this
      simp
    · rw [if_neg ha]
      obtain ⟨s, hbs, hnf⟩ := hok a (Nat.le_refl a) (by omega)
      rw [hbs]
      simp only [get_llm_response]
      rw [processResponse_continued shell (cleanResponse s) _ hnf]
      have hih := ih (a + 1) ""
        ((processResponse shell (cleanResponse s)
          (if (pushedHistory input s history).length > 100 then
            (pushedHistory input s history).drop 2
           else pushedHistory input s history)).2.1)
        (by omega) (by omega) (fun k hk1 hk2 => hok k (by omega) hk2)
      have hsc := no_backendCall_of_scan
        (processResponse_events shell (cleanResponse s)
          (if (pushedHistory input s history).length > 100 then
            (pushedHistory input s history).drop 2
           else pushedHistory input s history))
      constructor
      · simp only [List.count_cons, List.count_append, hsc.2, hih.1]
        simp
      · simp only [List.count_cons, List.count_append, hsc.1, hih.2]
        simp
        omega

/-! ### Claim theorems -/

/-- C2: every command string containing a destructive pattern (the
hard-reset substring or the recursive forced-delete substring) is refused:
`handle_execution` spawns no shell process (empty command trace) and returns
the refusal with the executed flag false, and the line scan appends a
refusal correction directed at the model instead of execution feedback —
regardless of the surrounding text of the command. -/
theorem C2_destructive_never_runs (shell : String → String × String × Bool)
    (line pre cmd : String) (history : List Message)
    (hsplit : splitOnce (trimS line) executeMarker = some (pre, cmd))
    (hd : containsSubstr cmd hardResetPat = true ∨ containsSubstr cmd rmRfPat = true) :
    handle_execution shell cmd = ((destructiveRefusal, "", false), []) ∧
    scanLine shell line history =
      (false, "", add_llm_correction cmd destructiveRefusal history, []) := by
  have hguard : (containsSubstr cmd hardResetPat || containsSubstr cmd rmRfPat) = true := by
    rcases hd with h | h <;> simp [h]
  have hhe : handle_execution shell cmd = ((destructiveRefusal, "", false), []) := by
    unfold handle_execution
    rw [if_pos hguard]
  have hne : cmd ≠ "" := by
    rcases hd with h | h
    · exact ne_empty_of_contains h (by decide)
    · exact ne_empty_of_contains h (by decide)
  refine ⟨hhe, ?_⟩
  simp only [scanLine, hsplit]
  rw [if_neg hne]
  simp [hhe]

/-- C2 witness: the concrete destructive command `git reset --hard HEAD`. -/
theorem C2_witness :
    handle_execution shellTriv " git reset --hard HEAD" =
      ((destructiveRefusal, "", false), []) ∧
    scanLine shellTriv "EXECUTE: git reset --hard HEAD" [] =
      (false, "", add_llm_correction " git reset --hard HEAD" destructiveRefusal [], []) :=
  C2_destructive_never_runs shellTriv "EXECUTE: git reset --hard HEAD" ""
    " git reset --hard HEAD" [] (by decide) (Or.inl (by decide))

/-- C10 (amended): a command text containing the `EXECUTE:` marker is always
refused — no shell process is spawned, the executed flag is false, and the
orchestrator appends a correction instead of execution feedback; the
returned message is the format reminder whenever the command matches no
destructive pattern (if it does, the destructive refusal takes precedence). -/
theorem C10_nested_marker_refused (shell : String → String × String × Bool)
    (line pre cmd : String) (history : List Message)
    (hsplit : splitOnce (trimS line) executeMarker = some (pre, cmd))
    (hx : containsSubstr cmd executeMarker = true) :
    (handle_execution shell cmd).2 = [] ∧
    (handle_execution shell cmd).1.2.2 = false ∧
    (containsSubstr cmd hardResetPat = false → containsSubstr cmd rmRfPat = false →
      (handle_execution shell cmd).1 = (formatReminder, "", false)) ∧
    scanLine shell line history =
      (false, "", add_llm_correction cmd (handle_execution shell cmd).1.1 history, []) := by
  have hne : cmd ≠ "" := ne_empty_of_contains hx (by decide)
  by_cases hd : (containsSubstr cmd hardResetPat || containsSubstr cmd rmRfPat) = true
  · have hhe : handle_execution shell cmd = ((destructiveRefusal, "", false), []) := by
      unfold handle_execution
      rw [if_pos hd]
    refine ⟨by rw [hhe], by rw [hhe], ?_, ?_⟩
    · intro h1 h2
      exfalso
      rw [h1, h2] at hd
      simp at hd
    · simp only [scanLine, hsplit]
      rw [if_neg hne]
      simp [hhe]
  · have hhe : handle_execution shell cmd = ((formatReminder, "", false), []) := by
      unfold handle_execution
      rw [if_neg hd, if_pos hx]
    refine ⟨by rw [hhe], by rw [hhe], fun _ _ => by rw [hhe], ?_⟩
    simp only [scanLine, hsplit]
    rw [if_neg hne]
    simp [hhe]

/-- C10 witness: a command containing the marker but no destructive pattern
receives the format reminder and is refused without spawning anything. -/
theorem C10_witness :
    (handle_execution shellTriv " ls EXECUTE: pwd").2 = [] ∧
    (handle_execution shellTriv " ls EXECUTE: pwd").1.2.2 = false ∧
    (containsSubstr " ls EXECUTE: pwd" hardResetPat = false →
      containsSubstr " ls EXECUTE: pwd" rmRfPat = false →
      (handle_execution shellTriv " ls EXECUTE: pwd").1 = (formatReminder, "", false)) ∧
    scanLine shellTriv "EXECUTE: ls EXECUTE: pwd" [] =
      (false, "",
       add_llm_correction " ls EXECUTE: pwd"
         (handle_execution shellTriv " ls EXECUTE: pwd").1.1 [], []) :=
  C10_nested_marker_refused shellTriv "EXECUTE: ls EXECUTE: pwd" "" " ls EXECUTE: pwd" []
    (by decide) (by decide)

/-- C10 counterexample: the claim promises the format-reminder message for
every command containing `EXECUTE:`, but a command that also contains a
destructive pattern receives the destructive refusal instead. -/
theorem C10_counterexample :
    containsSubstr " rm -rf EXECUTE: x" executeMarker = true ∧
    (handle_execution shellTriv " rm -rf EXECUTE: x").1.1 = destructiveRefusal ∧
    destructiveRefusal ≠ formatReminder := by decide

/-- C1 (amended): a reply containing both `FINAL:` and `EXECUTE:` gets
exactly one correction appended and no command is extracted or executed, but
the turn is nevertheless terminated through the `FINAL:` split, printing the
trimmed final message when it is non-empty. -/
theorem C1_mixed_markers (shell : String → String × String × Bool)
    (response : String) (history : List Message)
    (hf : containsSubstr response finalMarker = true)
    (he : containsSubstr response executeMarker = true) :
    ∃ pre post, splitOnce response finalMarker = some (pre, post) ∧
      processResponse shell response history =
        (StepOutcome.terminated,
         add_llm_correction response mixedCorrection history,
         if trimS post = "" then [] else [Event.finalPrint (trimS post)]) := by
  obtain ⟨pre, post, hsp⟩ := exists_splitOnce hf
  refine ⟨pre, post, hsp, ?_⟩
  unfold processResponse
  rw [hf, he, hsp]
  simp

/-- C1 witness: a concrete mixed reply. -/
theorem C1_witness :
    ∃ pre post, splitOnce "EXECUTE: ls\nFINAL: done" finalMarker = some (pre, post) ∧
      processResponse shellTriv "EXECUTE: ls\nFINAL: done" [] =
        (StepOutcome.terminated,
         add_llm_correction "EXECUTE: ls\nFINAL: done" mixedCorrection [],
         if trimS post = "" then [] else [Event.finalPrint (trimS post)]) :=
  C1_mixed_markers shellTriv "EXECUTE: ls\nFINAL: done" [] (by decide) (by decide)

/-- C1 counterexample: on the mixed reply `EXECUTE: ls\nFINAL: done` the
turn is terminated and the final message `done` is extracted and printed,
contradicting the claim that the turn is never terminated and that no final
message is extracted. -/
theorem C1_counterexample :
    (processResponse shellTriv "EXECUTE: ls\nFINAL: done" []).1 = StepOutcome.terminated ∧
    (processResponse shellTriv "EXECUTE: ls\nFINAL: done" []).2.2 =
      [Event.finalPrint "done"] ∧
    (processResponse shellTriv "EXECUTE: ls\nFINAL: done" []).2.1 =
      [corrMsg "EXECUTE: ls\nFINAL: done" mixedCorrection] := by decide

/-- C8: a reply containing `FINAL:` but not `EXECUTE:` is split at the first
occurrence of `FINAL:`; the trimmed remainder is printed as the final
message when non-empty, the turn terminates, the history is untouched, and
no command is executed (the event trace holds no spawned command). -/
theorem C8_final_terminates (shell : String → String × String × Bool)
    (response : String) (history : List Message)
    (hf : containsSubstr response finalMarker = true)
    (he : containsSubstr response executeMarker = false) :
    ∃ pre post, splitOnce response finalMarker = some (pre, post) ∧
      processResponse shell response history =
        (StepOutcome.terminated, history,
         if trimS post = "" then [] else [Event.finalPrint (trimS post)]) := by
  obtain ⟨pre, post, hsp⟩ := exists_splitOnce hf
  refine ⟨pre, post, hsp, ?_⟩
  unfold processResponse
  rw [hf, he, hsp]
  simp

/-- C8 witness: the reply `FINAL: done` terminates the turn printing
`done`. -/
theorem C8_witness :
    ∃ pre post, splitOnce "FINAL: done" finalMarker = some (pre, post) ∧
      processResponse shellTriv "FINAL: done" [] =
        (StepOutcome.terminated, [],
         if trimS post = "" then [] else [Event.finalPrint (trimS post)]) :=
  C8_final_terminates shellTriv "FINAL: done" [] (by decide) (by decide)

/-- C5: for the reply `EXECUTE: echo hi\nEXECUTE: echo bye`, both commands
are spawned in that order and the feedback appended to history is one single
aggregated entry holding both outputs in the same order. -/
theorem C5_two_commands (history : List Message) :
    processResponse shellC5 "EXECUTE: echo hi\nEXECUTE: echo bye" history =
      (StepOutcome.continued,
       history ++ [Message.mk "user"
         "Output of \x60 echo hi\x60:\nhi\n\nOutput of \x60 echo bye\x60:\nbye\n\n"],
       [Event.execCmd " echo hi", Event.execCmd " echo bye"]) := rfl

/-- C7 (amended): every line whose trimmed text does not contain the
`EXECUTE:` marker — blank lines included — yields exactly one correction
saying the command should start with `EXECUTE`, and nothing else. -/
theorem C7_line_without_marker (shell : String → String × String × Bool)
    (line : String) (history : List Message)
    (h : splitOnce (trimS line) executeMarker = none) :
    scanLine shell line history =
      (false, "", add_llm_correction (trimS line) lineCorrection history, []) := by
  unfold scanLine
  rw [h]

/-- C7 witness: the blank line, the simplest line without the marker. -/
theorem C7_witness :
    scanLine shellTriv "" [] =
      (false, "", add_llm_correction (trimS "") lineCorrection [], []) :=
  C7_line_without_marker shellTriv "" [] (by decide)

/-- C7 counterexample: scanning the reply `EXECUTE: ls\n\nfoo` appends a
correction for the blank middle line, contradicting the claim that a blank
line yields no directive at all. -/
theorem C7_counterexample :
    (processResponse shellTriv "EXECUTE: ls\n\nfoo" []).2.1 =
      [corrMsg "" lineCorrection, corrMsg "foo" lineCorrection,
       Message.mk "user" "Output of \x60 ls\x60:\n\n"] := by decide

theorem scanLines_all_malformed (shell : String → String × String × Bool) :
    ∀ (lines : List String) (history : List Message),
      (∀ l ∈ lines, splitOnce (trimS l) executeMarker = none) →
      scanLines shell lines history =
        (false, "", history ++ lines.map (fun l => corrMsg (trimS l) lineCorrection), []) := by
  intro lines
  induction lines with
  | nil => intro history _; simp [scanLines]
  | cons l ls ih =>
    intro history h
    have hl := h l (List.mem_cons_self l ls)
    have hline : scanLine shell l history =
        (false, "", add_llm_correction (trimS l) lineCorrection history, []) := by
      unfold scanLine
      rw [hl]
    rw [scanLines]
    simp only [hline]
    rw [ih (add_llm_correction (trimS l) lineCorrection history)
      (fun x hx => h x (List.mem_cons_of_mem l hx))]
    simp [add_llm_correction]

/-- C6 (amended): a reply containing neither `EXECUTE:` nor `FINAL:` is
never a silent no-op, but it does not yield a single correction with the
claimed reason text: the scan appends one per-line correction (message
"Command should start with `EXECUTE`." ) for every line, followed by the
catch-all correction "Command should start with either `FINAL:` or
`EXECUTE`.". -/
theorem C6_no_marker_corrections (shell : String → String × String × Bool)
    (response : String) (history : List Message)
    (hf : containsSubstr response finalMarker = false)
    (he : containsSubstr response executeMarker = false) :
    processResponse shell response history =
      (StepOutcome.continued,
       (history ++ (rustLines response).map (fun l => corrMsg (trimS l) lineCorrection)) ++
         [corrMsg response catchAllCorrection],
       []) := by
  have hlines : ∀ l ∈ rustLines response, splitOnce (trimS l) executeMarker = none :=
    fun l hl => line_no_marker he hl
  unfold processResponse
  rw [hf, splitOnce_eq_none hf]
  simp only [Bool.false_and, Bool.false_eq_true, if_false]
  rw [scanLines_all_malformed shell (rustLines response) history hlines]
  simp [add_llm_correction]

/-- C6 witness: the single-line reply `hello` with no markers. -/
theorem C6_witness :
    processResponse shellTriv "hello" [] =
      (StepOutcome.continued,
       (([] : List Message) ++
          (rustLines "hello").map (fun l => corrMsg (trimS l) lineCorrection)) ++
         [corrMsg "hello" catchAllCorrection],
       []) :=
  C6_no_marker_corrections shellTriv "hello" [] (by decide) (by decide)

/-- C6 counterexample: the marker-free reply `hello` appends two corrections
(not a single Malformed directive), and none of them carries the reason
"response contained neither EXECUTE nor FINAL". -/
theorem C6_counterexample :
    ((processResponse shellTriv "hello" []).2.1).length = 2 ∧
    (∀ m ∈ (processResponse shellTriv "hello" []).2.1,
      containsSubstr m.content "response contained neither EXECUTE nor FINAL" = false) := by
  decide

/-- C3 (amended): whenever the history is trimmed (inside
`get_llm_response`, right after the assistant reply is pushed and the length
exceeds 100) exactly the two oldest entries are removed together, never a
single one, and a successful backend call never leaves the history longer
than `max` of its previous length and 100; the global bound 100 itself does
not hold, because corrections are appended without trimming. -/
theorem C3_pair_trimming (input raw : String) (history : List Message) :
    ((pushedHistory input raw history).length ≤ 100 →
      (get_llm_response (Except.ok raw) input history).2 = pushedHistory input raw history) ∧
    ((pushedHistory input raw history).length > 100 →
      (get_llm_response (Except.ok raw) input history).2 =
          (pushedHistory input raw history).drop 2 ∧
        (pushedHistory input raw history).take 2 ++
            (get_llm_response (Except.ok raw) input history).2 =
          pushedHistory input raw history ∧
        (get_llm_response (Except.ok raw) input history).2.length + 2 =
          (pushedHistory input raw history).length) ∧
    (get_llm_response (Except.ok raw) input history).2.length ≤
      max history.length 100 := by
  have hlen : (pushedHistory input raw history).length ≤ history.length + 2 := by
    unfold pushedHistory pushUser
    split <;> simp
  have hval : (get_llm_response (Except.ok raw) input history).2 =
      if (pushedHistory input raw history).length > 100 then
        (pushedHistory input raw history).drop 2
      else pushedHistory input raw history := rfl
  refine ⟨?_, ?_, ?_⟩
  · intro h
    rw [hval, if_neg (by omega)]
  · intro h
    have h2 : (get_llm_response (Except.ok raw) input history).2 =
        (pushedHistory input raw history).drop 2 := by
      rw [hval, if_pos h]
    refine ⟨h2, ?_, ?_⟩
    · rw [h2]
      exact List.take_append_drop 2 _
    · rw [h2, List.length_drop]
      omega
  · by_cases h : (pushedHistory input raw history).length > 100
    · rw [hval, if_pos h, List.length_drop]
      omega
    · rw [hval, if_neg h]
      omega

/-- C3 witness: with 100 entries already present, pushing the user input and
the assistant reply reaches 102, and the trim removes exactly the two
oldest entries together. -/
theorem C3_witness :
    (get_llm_response (Except.ok "ok") "hi" hundredMsgs).2 =
        (pushedHistory "hi" "ok" hundredMsgs).drop 2 ∧
      (pushedHistory "hi" "ok" hundredMsgs).take 2 ++
          (get_llm_response (Except.ok "ok") "hi" hundredMsgs).2 =
        pushedHistory "hi" "ok" hundredMsgs ∧
      (get_llm_response (Except.ok "ok") "hi" hundredMsgs).2.length + 2 =
        (pushedHistory "hi" "ok" hundredMsgs).length :=
  (C3_pair_trimming "hi" "ok" hundredMsgs).2.1 (by decide)

/-- C3 counterexample: starting the very first user turn from the empty
history, the conversation history ends the turn with more than 100 entries,
because corrections are appended without any trimming. -/
theorem C3_counterexample :
    100 < (repl_step shellTriv overflowBackends "hi" []).2.1.length := by decide

/-- C4: within one user turn the attempt counter starts at 0 and is bumped
once per model round-trip, so the trace carries at most 11 backend calls;
the abort diagnostic appears at most once and only as the very last event
(hence no backend call follows it), and when every reply keeps the loop
going (delivered successfully, no `FINAL:` marker after cleaning) the
budget is exhausted: exactly one abort diagnostic and exactly 11 backend
calls. -/
theorem C4_attempt_budget (shell : String → String × String × Bool)
    (backends : Nat → Except String String) (input : String) (history : List Message) :
    ((repl_step shell backends input history).2.2).count Event.backendCall ≤ 11 ∧
    ((repl_step shell backends input history).2.2).count Event.abortDiag ≤ 1 ∧
    (∀ pre post, (repl_step shell backends input history).2.2 =
        pre ++ Event.abortDiag :: post → post = []) ∧
    ((∀ k, k ≤ 10 → okNoFinal (backends k)) →
      ((repl_step shell backends input history).2.2).count Event.abortDiag = 1 ∧
      ((repl_step shell backends input history).2.2).count Event.backendCall = 11) := by
  refine ⟨?_, ?_, ?_, ?_⟩
  · simpa using replLoopF_backend_le shell backends 12 0 input history
  · exact replLoopF_abort_le shell backends 12 0 input history
  · exact fun pre post h => replLoopF_abort_last shell backends 12 0 input history pre post h
  · intro hok
    have h := replLoopF_abort_one shell backends 12 0 input history (by omega) (by omega)
      (fun k _ hk => hok k hk)
    simpa using h

/-- C4 witness: a backend that always answers `hello` exhausts the budget
with exactly one abort diagnostic after exactly 11 backend calls. -/
theorem C4_witness :
    ((repl_step shellTriv (fun _ => Except.ok "hello") "hi" []).2.2).count
        Event.abortDiag = 1 ∧
    ((repl_step shellTriv (fun _ => Except.ok "hello") "hi" []).2.2).count
        Event.backendCall = 11 :=
  (C4_attempt_budget shellTriv (fun _ => Except.ok "hello") "hi" []).2.2.2
    (fun k _ => ⟨"hello", rfl, by decide⟩)

theorem replLoopF_error_step (shell : String → String × String × Bool)
    (backends : Nat → Except String String) (fuel attempts : Nat) (input e : String)
    (history : List Message) (ha : ¬ attempts > 10)
    (hb : backends attempts = Except.error e) :
    replLoopF shell backends (fuel + 1) attempts input history =
      (Except.error e, pushUser input history, [Event.backendCall]) := by
  simp only [replLoopF]
  rw [if_neg ha, hb]
  simp [get_llm_response]

/-- C9: a backend failure on the first round-trip of a turn is fatal to that
turn only — the loop stops at once with the error (one backend call, no
abort, no further events), the history keeps only the user message pushed
before the call (in particular no correction is fed back to the model), and
the session loop prints the error and goes on to the next user turn instead
of exiting. -/
theorem C9_backend_failure (shell : String → String × String × Bool)
    (backends : Nat → Except String String) (e input : String) (history : List Message)
    (rest : List (String × (Nat → Except String String)))
    (hb : backends 0 = Except.error e) :
    repl_step shell backends input history =
      (Except.error e, pushUser input history, [Event.backendCall]) ∧
    mainLoop shell ((input, backends) :: rest) history =
      (Event.backendCall :: Event.print ("Critical Error: " ++ e) ::
        (mainLoop shell rest (pushUser input history)).1,
       (mainLoop shell rest (pushUser input history)).2) := by
  have h1 : repl_step shell backends input history =
      (Except.error e, pushUser input history, [Event.backendCall]) :=
    replLoopF_error_step shell backends 11 0 input e history (by omega) hb
  refine ⟨h1, ?_⟩
  have h2 : mainLoop shell ((input, backends) :: rest) history =
      ((repl_step shell backends input history).2.2 ++
          mainIter (repl_step shell backends input history).1 ++
          (mainLoop shell rest (repl_step shell backends input history).2.1).1,
       (mainLoop shell rest (repl_step shell backends input history).2.1).2) := rfl
  rw [h2, h1]
  simp [mainIter]

/-- C9 witness: a backend failing with `boom` on the first turn of a
two-step session. -/
theorem C9_witness :
    repl_step shellTriv (fun _ => Except.error "boom") "hi" [] =
      (Except.error "boom", pushUser "hi" [], [Event.backendCall]) ∧
    mainLoop shellTriv [("hi", fun _ => Except.error "boom")] [] =
      (Event.backendCall :: Event.print ("Critical Error: " ++ "boom") ::
        (mainLoop shellTriv [] (pushUser "hi" [])).1,
       (mainLoop shellTriv [] (pushUser "hi" [])).2) :=
  C9_backend_failure shellTriv (fun _ => Except.error "boom") "boom" "hi" [] [] rfl

end Jade
